import Mathlib

/-!
# Verification of the Krotov-Hopfield Hebbian learning core

A shallow embedding of `pytorch_hebbian`'s learning core:

* `KrotovsRule.update` and `KrotovsRule.update_argsort`
  (`pytorch_hebbian/learning_rules/krotov.py`),
* the `HebbianEngine` training-loop cadence and `_train_step`
  (`pytorch_hebbian/learning_engines/hebbian_engine.py`),
* the linear learning-rate decay schedule constructed in `main.py`.

Tensors are modelled as matrices of rationals (`Fin m → Fin n → ℚ`):
exact arithmetic in place of floating point.  Fallible code (Python
exceptions / asserts) is modelled with `Except String`.  The selection
primitives `torch.topk` and `torch.argsort` are modelled by a
deterministic comparison sort; ties between equal scores are broken by
unit index, consistently for both primitives (PyTorch leaves the tie
order unspecified).
-/

/-- A dense `m × n` tensor of exact rationals. -/
abbrev Mat (m n : ℕ) : Type := Fin m → Fin n → ℚ

/-- `torch.sign` on a scalar: `-1`, `0` or `1`. -/
def qsign (x : ℚ) : ℚ :=
  if x < 0 then -1 else if x = 0 then 0 else 1

/-- `torch.abs` on a scalar. -/
def qabs (x : ℚ) : ℚ :=
  if x < 0 then -x else x

/-- `torch.t`: matrix transpose. -/
def transposeM (A : Mat m n) : Mat n m := fun i j => A j i

/-- `torch.matmul` on 2-D tensors. -/
def matmulM (A : Mat m n) (B : Mat n p) : Mat m p :=
  fun i j => ∑ d : Fin n, A i d * B d j

/-- Elementwise product (`*` broadcasting on equal shapes). -/
def elemMul (A B : Mat m n) : Mat m n := fun i j => A i j * B i j

/-- Elementwise `torch.sign`. -/
def signM (A : Mat m n) : Mat m n := fun i j => qsign (A i j)

/-- Elementwise `torch.abs(...) ** e` for a natural exponent. -/
def absPowM (A : Mat m n) (e : ℕ) : Mat m n := fun i j => qabs (A i j) ^ e

section SortBy

variable {α : Type}

/-- Insert `a` into `l` in front of the first element that `a` should
strictly precede (comparison sort insertion step). -/
def insertBy (lt : α → α → Bool) (a : α) : List α → List α
  | [] => [a]
  | b :: l => if lt a b then a :: b :: l else b :: insertBy lt a l

/-- Insertion sort by a strict comparison, the deterministic model of
the library's sorting primitives. -/
def sortBy (lt : α → α → Bool) : List α → List α
  | [] => []
  | a :: l => insertBy lt a (sortBy lt l)

theorem insertBy_perm (lt : α → α → Bool) (a : α) (l : List α) :
    List.Perm (insertBy lt a l) (a :: l) := by
  induction l with
  | nil => simp [insertBy]
  | cons b l ih =>
      by_cases h : lt a b
      · simp [insertBy, h]
      · simp only [insertBy, h, if_neg]
        exact ((ih.cons b).trans (List.Perm.swap a b l)).trans (List.Perm.refl _)

theorem sortBy_perm (lt : α → α → Bool) (l : List α) :
    List.Perm (sortBy lt l) l := by
  induction l with
  | nil => simp [sortBy]
  | cons a l ih =>
      exact (insertBy_perm lt a (sortBy lt l)).trans (ih.cons a)

theorem length_sortBy (lt : α → α → Bool) (l : List α) :
    (sortBy lt l).length = l.length :=
  (sortBy_perm lt l).length_eq

theorem mem_sortBy (lt : α → α → Bool) (a : α) (l : List α) :
    a ∈ sortBy lt l ↔ a ∈ l :=
  (sortBy_perm lt l).mem_iff

/-- Sortedness produced by `insertBy`, assuming the comparison is
asymmetric and transitive.  The sorted relation is "the later element
does not strictly precede the earlier one". -/
theorem insertBy_pairwise (lt : α → α → Bool)
    (hasymm : ∀ x y, lt x y = true → lt y x = false)
    (htrans : ∀ x y z, lt x y = true → lt y z = true → lt x z = true)
    (a : α) (l : List α)
    (hl : l.Pairwise (fun x y => lt y x = false)) :
    (insertBy lt a l).Pairwise (fun x y => lt y x = false) := by
  induction l with
  | nil => simp [insertBy]
  | cons b l ih =>
      rcases (List.pairwise_cons.mp hl) with ⟨hb, hl'⟩
      by_cases h : lt a b
      · simp only [insertBy, h, if_pos]
        refine List.pairwise_cons.mpr ⟨?_, hl⟩
        intro x hx
        rcases hx with _ | hx
        · exact hasymm a b h
        · rename_i hx
          by_cases hxa : lt x a
          · have : lt x b = true := htrans x a b hxa h
            have := hb x hx
            simp_all
          · simpa using hxa
      · simp only [insertBy, h, if_neg]
        refine List.pairwise_cons.mpr ⟨?_, ih hl'⟩
        intro x hx
        have hx' := (insertBy_perm lt a l).mem_iff.mp hx
        rcases List.mem_cons.mp hx' with rfl | hx2
        · simpa using h
        · exact hb x hx2

theorem sortBy_pairwise (lt : α → α → Bool)
    (hasymm : ∀ x y, lt x y = true → lt y x = false)
    (htrans : ∀ x y z, lt x y = true → lt y z = true → lt x z = true)
    (l : List α) :
    (sortBy lt l).Pairwise (fun x y => lt y x = false) := by
  induction l with
  | nil => simp [sortBy]
  | cons a l ih => exact insertBy_pairwise lt hasymm htrans a (sortBy lt l) ih

end SortBy

/-- The descending comparison used by the `torch.topk` model: higher
score first, ties broken towards the lower unit index. -/
def descLt {H : ℕ} (s : Fin H → ℚ) (i j : Fin H) : Bool :=
  decide (s j < s i) || (decide (s i = s j) && decide (i < j))

/-- The ascending comparison used by the `torch.argsort` model: lower
score first, ties broken towards the higher unit index (the reverse of
the `descLt` order, one valid realization of the library's unstable
sort). -/
def ascLt {H : ℕ} (s : Fin H → ℚ) (i j : Fin H) : Bool :=
  decide (s i < s j) || (decide (s i = s j) && decide (j < i))

/-- `torch.topk(s, H)` index output for one column: all unit indices
sorted by descending score. -/
def topkIndices {H : ℕ} (s : Fin H → ℚ) : List (Fin H) :=
  sortBy (descLt s) (List.finRange H)

/-- `torch.argsort(s)` for one column: all unit indices sorted by
ascending score. -/
def argsortIndices {H : ℕ} (s : Fin H → ℚ) : List (Fin H) :=
  sortBy (ascLt s) (List.finRange H)

/-- Hyperparameters stored by `KrotovsRule.__init__`
(`precision`, `delta`, `norm`, `k`). -/
structure KrotovsRule where
  precision : ℚ
  delta : ℚ
  norm : ℕ
  k : ℕ

/-- `KrotovsRule.__init__(precision, delta, norm, k)`: stores the four
hyperparameters.  The constructor body performs no validation and has
no failure path, so the embedding always returns `Except.ok`. -/
def KrotovsRule.init (precision delta : ℚ) (norm k : ℕ) :
    Except String KrotovsRule :=
  Except.ok { precision := precision, delta := delta, norm := norm, k := k }

namespace KrotovsRule

variable {B D H : ℕ}

/-- `inputs = torch.t(inputs)`: the transposed input batch, `D × B`. -/
def inputsT (X : Mat B D) : Mat D B := transposeM X

/-- `tot_input = torch.matmul(torch.sign(weights) * torch.abs(weights) ** (self.norm - 1), inputs)`:
the overlap score of every hidden unit with every sample, `H × B`. -/
def totInput (r : KrotovsRule) (X : Mat B D) (W : Mat H D) : Mat H B :=
  matmulM (elemMul (signM W) (absPowM W (r.norm - 1))) (inputsT X)

/-- The score column of one sample `b`: `tot_input[:, b]`. -/
def colScore (r : KrotovsRule) (X : Mat B D) (W : Mat H D) (b : Fin B) :
    Fin H → ℚ :=
  fun h => totInput r X W h b

/-- `indices[i, b]` from `_, indices = torch.topk(tot_input, k=self.k, dim=0)`
(`none` when `i` is out of range, where the Python code raises). -/
def topIdx (r : KrotovsRule) (X : Mat B D) (W : Mat H D) (i : ℕ) (b : Fin B) :
    Option (Fin H) :=
  (topkIndices (colScore r X W b)).get? i

/-- The activation matrix of `update`:
`activations = torch.zeros(...)`, then
`activations[indices[0], arange(B)] = 1.0` and
`activations[indices[self.k - 1], arange(B)] = -self.delta`.
The second store happens last, so where the two index rows coincide the
`-delta` store overwrites the `1.0`. -/
def activations (r : KrotovsRule) (X : Mat B D) (W : Mat H D) : Mat H B :=
  fun h b =>
    if topIdx r X W (r.k - 1) b = some h then -r.delta
    else if topIdx r X W 0 b = some h then 1
    else 0

/-- `xx = torch.sum(torch.mul(activations, tot_input), 1)`. -/
def xx (r : KrotovsRule) (X : Mat B D) (W : Mat H D) : Fin H → ℚ :=
  fun h => ∑ b : Fin B, activations r X W h b * totInput r X W h b

/-- `norm_factor = torch.mul(xx.view(...).repeat(...), weights)`:
`xx` broadcast across the input dimension times the weights. -/
def normFactor (r : KrotovsRule) (X : Mat B D) (W : Mat H D) : Mat H D :=
  fun h d => xx r X W h * W h d

/-- `ds = torch.matmul(activations, torch.t(inputs)) - norm_factor`,
the raw (unnormalized) weight delta. -/
def rawDelta (r : KrotovsRule) (X : Mat B D) (W : Mat H D) : Mat H D :=
  fun h d =>
    matmulM (activations r X W) (transposeM (inputsT X)) h d
      - normFactor r X W h d

/-- All entries of `torch.abs(m)` as a flat list. -/
def absEntries (m : Mat H D) : List ℚ :=
  (List.finRange H).flatMap fun h => (List.finRange D).map fun d => qabs (m h d)

/-- `torch.max` over a flat nonnegative list (`0` on the empty list,
where the Python code raises instead; `update` guards that case). -/
def listMax (l : List ℚ) : ℚ := l.foldl max 0

/-- `nc = torch.max(torch.abs(ds))`. -/
def maxAbs (m : Mat H D) : ℚ := listMax (absEntries m)

/-- `if nc < self.precision: nc = self.precision`: the clamped
normalization divisor. -/
def ncOf (r : KrotovsRule) (m : Mat H D) : ℚ :=
  if maxAbs m < r.precision then r.precision else maxAbs m

/-- `d_w = torch.true_divide(ds, nc)`: the normalized weight delta. -/
def d_w (r : KrotovsRule) (X : Mat B D) (W : Mat H D) : Mat H D :=
  fun h d => rawDelta r X W h d / ncOf r (rawDelta r X W)

/-- `KrotovsRule.update(inputs, weights)`.  The error branches mirror,
in Python evaluation order, the exceptions the method can raise:
`inputs[0]` on an empty batch (IndexError), the explicit assert
`k <= num_hidden_units`, `indices[0]` when `k = 0` (IndexError on the
empty top-k result), and `torch.max` on an empty `ds` when the input
feature dimension is zero. -/
def update (r : KrotovsRule) (X : Mat B D) (W : Mat H D) :
    Except String (Mat H D) :=
  if B = 0 then
    Except.error "index 0 is out of bounds for dimension 0 with size 0"
  else if ¬ r.k ≤ H then
    Except.error "The amount of hidden units should be larger or equal to k!"
  else if r.k = 0 then
    Except.error "index 0 is out of bounds for dimension 0 with size 0"
  else if D = 0 then
    Except.error "max on a tensor with no elements"
  else
    Except.ok (d_w r X W)

/-- `y[i, b]` from `y = torch.argsort(tot_input, dim=0)` in
`update_argsort`. -/
def argIdx (r : KrotovsRule) (X : Mat B D) (W : Mat H D) (i : ℕ) (b : Fin B) :
    Option (Fin H) :=
  (argsortIndices (colScore r X W b)).get? i

/-- The activation matrix of `update_argsort`:
`activations[y[num_hidden_units - 1, :], arange(B)] = 1.0`, then
`activations[y[num_hidden_units - self.k], arange(B)] = -self.delta`;
again the later `-delta` store wins on coinciding indices. -/
def activationsArg (r : KrotovsRule) (X : Mat B D) (W : Mat H D) : Mat H B :=
  fun h b =>
    if argIdx r X W (H - r.k) b = some h then -r.delta
    else if argIdx r X W (H - 1) b = some h then 1
    else 0

/-- `xx` as computed by `update_argsort`. -/
def xxArg (r : KrotovsRule) (X : Mat B D) (W : Mat H D) : Fin H → ℚ :=
  fun h => ∑ b : Fin B, activationsArg r X W h b * totInput r X W h b

/-- `norm_factor` as computed by `update_argsort`. -/
def normFactorArg (r : KrotovsRule) (X : Mat B D) (W : Mat H D) : Mat H D :=
  fun h d => xxArg r X W h * W h d

/-- `ds` as computed by `update_argsort`. -/
def rawDeltaArg (r : KrotovsRule) (X : Mat B D) (W : Mat H D) : Mat H D :=
  fun h d =>
    matmulM (activationsArg r X W) (transposeM (inputsT X)) h d
      - normFactorArg r X W h d

/-- `d_w` as computed by `update_argsort`. -/
def d_wArg (r : KrotovsRule) (X : Mat B D) (W : Mat H D) : Mat H D :=
  fun h d => rawDeltaArg r X W h d / ncOf r (rawDeltaArg r X W)

/-- `KrotovsRule.update_argsort(inputs, weights)`: the full-sort
selection strategy.  Error branches as in `update`; when `k = 0` the
failing access is `y[num_hidden_units]` instead of `indices[0]`. -/
def update_argsort (r : KrotovsRule) (X : Mat B D) (W : Mat H D) :
    Except String (Mat H D) :=
  if B = 0 then
    Except.error "index 0 is out of bounds for dimension 0 with size 0"
  else if ¬ r.k ≤ H then
    Except.error "The amount of hidden units should be larger or equal to k!"
  else if r.k = 0 then
    Except.error "index out of bounds for the hidden dimension"
  else if D = 0 then
    Except.error "max on a tensor with no elements"
  else
    Except.ok (d_wArg r X W)

end KrotovsRule

section Ranking

variable {H : ℕ} (s : Fin H → ℚ)

theorem descLt_iff (i j : Fin H) :
    descLt s i j = true ↔ (s j < s i ∨ (s i = s j ∧ i < j)) := by
  simp [descLt]

theorem ascLt_eq_descLt (i j : Fin H) : ascLt s i j = descLt s j i := by
  simp only [ascLt, descLt]
  congr 1
  congr 1
  exact decide_eq_decide.mpr ⟨Eq.symm, Eq.symm⟩

theorem descLt_asymm (i j : Fin H) (h : descLt s i j = true) :
    descLt s j i = false := by
  rcases (descLt_iff s i j).mp h with h' | ⟨h1, h2⟩
  · by_contra hc
    rcases (descLt_iff s j i).mp (by simpa using hc) with h'' | ⟨h1, _⟩
    · exact absurd (h'.trans h'') (lt_irrefl _)
    · exact absurd h1.symm (ne_of_gt h')
  · by_contra hc
    rcases (descLt_iff s j i).mp (by simpa using hc) with h'' | ⟨_, h3⟩
    · exact absurd (h1 ▸ h'') (lt_irrefl _)
    · exact absurd (h2.trans h3) (lt_irrefl _)

theorem descLt_trans (i j l : Fin H) (hij : descLt s i j = true)
    (hjl : descLt s j l = true) : descLt s i l = true := by
  rcases (descLt_iff s i j).mp hij with h1 | ⟨h1, h1'⟩ <;>
    rcases (descLt_iff s j l).mp hjl with h2 | ⟨h2, h2'⟩ <;>
      refine (descLt_iff s i l).mpr ?_
  · exact Or.inl (h2.trans h1)
  · exact Or.inl (h2 ▸ h1)
  · exact Or.inl (h1 ▸ h2)
  · exact Or.inr ⟨h1.trans h2, h1'.trans h2'⟩

theorem descLt_connex (i j : Fin H) (hne : i ≠ j) :
    descLt s i j = true ∨ descLt s j i = true := by
  rcases lt_trichotomy (s i) (s j) with h | h | h
  · exact Or.inr ((descLt_iff s j i).mpr (Or.inl h))
  · rcases lt_or_gt_of_ne (Fin.val_ne_of_ne hne) with h' | h'
    · exact Or.inl ((descLt_iff s i j).mpr (Or.inr ⟨h, Fin.lt_def.mpr h'⟩))
    · exact Or.inr ((descLt_iff s j i).mpr (Or.inr ⟨h.symm, Fin.lt_def.mpr h'⟩))
  · exact Or.inl ((descLt_iff s i j).mpr (Or.inl h))

theorem ascLt_asymm (i j : Fin H) (h : ascLt s i j = true) :
    ascLt s j i = false := by
  rw [ascLt_eq_descLt] at h ⊢
  exact descLt_asymm s j i h

theorem ascLt_trans (i j l : Fin H) (hij : ascLt s i j = true)
    (hjl : ascLt s j l = true) : ascLt s i l = true := by
  rw [ascLt_eq_descLt] at hij hjl ⊢
  exact descLt_trans s l j i hjl hij

theorem topkIndices_perm : List.Perm (topkIndices s) (List.finRange H) :=
  sortBy_perm _ _

theorem topkIndices_length : (topkIndices s).length = H := by
  simpa using (topkIndices_perm s).length_eq

theorem topkIndices_nodup : (topkIndices s).Nodup :=
  ((topkIndices_perm s).nodup_iff).mpr (List.nodup_finRange H)

theorem mem_topkIndices (h : Fin H) : h ∈ topkIndices s :=
  (topkIndices_perm s).mem_iff.mpr (List.mem_finRange h)

theorem topkIndices_pairwise :
    (topkIndices s).Pairwise (fun x y => descLt s y x = false) :=
  sortBy_pairwise _ (descLt_asymm s) (descLt_trans s) _

theorem argsortIndices_perm : List.Perm (argsortIndices s) (List.finRange H) :=
  sortBy_perm _ _

theorem argsortIndices_pairwise :
    (argsortIndices s).Pairwise (fun x y => ascLt s y x = false) :=
  sortBy_pairwise _ (ascLt_asymm s) (ascLt_trans s) _

/-- The full-sort index list is exactly the reversed top-k index list:
both realize the same deterministic order, read in opposite
directions. -/
theorem argsortIndices_eq_reverse :
    argsortIndices s = (topkIndices s).reverse := by
  have hanti : ∀ x y : Fin H,
      ascLt s y x = false → ascLt s x y = false → x = y := by
    intro x y hxy hyx
    by_contra hne
    rcases descLt_connex s x y hne with h | h
    · rw [ascLt_eq_descLt] at hxy; simp [h] at hxy
    · rw [ascLt_eq_descLt] at hyx; simp [h] at hyx
  haveI : IsAntisymm (Fin H) (fun x y => ascLt s y x = false) := ⟨hanti⟩
  refine List.eq_of_perm_of_sorted
    (r := fun x y : Fin H => ascLt s y x = false) ?_ ?_ ?_
  · exact (argsortIndices_perm s).trans
      ((topkIndices_perm s).symm.trans (topkIndices s).reverse_perm.symm)
  · exact argsortIndices_pairwise s
  · refine List.pairwise_reverse.mpr ?_
    have := topkIndices_pairwise s
    refine this.imp_of_mem ?_
    intro a b _ _ hab
    rw [ascLt_eq_descLt]
    exact hab

/-- Read through the reversal: position `H - 1 - i` of `argsort`
equals position `i` of the descending ranking. -/
theorem argsort_get?_eq (i : ℕ) (hi : i < H) :
    (argsortIndices s).get? (H - 1 - i) = (topkIndices s).get? i := by
  rw [argsortIndices_eq_reverse s]
  rw [List.get?_eq_getElem?, List.get?_eq_getElem?]
  have hlen : i < (topkIndices s).length := by rw [topkIndices_length]; exact hi
  have hrev : H - 1 - i < (topkIndices s).length := by
    rw [topkIndices_length]; omega
  rw [List.getElem?_reverse (by rw [topkIndices_length]; omega)]
  congr 1
  rw [topkIndices_length]
  omega

end Ranking

theorem qabs_eq_abs (x : ℚ) : qabs x = |x| := by
  unfold qabs
  rcases lt_or_le x 0 with h | h
  · simp [h, abs_of_neg h]
  · simp [not_lt.mpr h, abs_of_nonneg h]

theorem foldl_max_init (l : List ℚ) (x : ℚ) : x ≤ l.foldl max x := by
  induction l generalizing x with
  | nil => simp
  | cons b l ih =>
      simp only [List.foldl_cons]
      exact le_trans (le_max_left x b) (ih (max x b))

theorem le_foldl_max (l : List ℚ) : ∀ a x : ℚ, a ∈ l → a ≤ l.foldl max x := by
  induction l with
  | nil => intro a x h; cases h
  | cons b l ih =>
      intro a x h
      simp only [List.foldl_cons]
      rcases List.mem_cons.mp h with rfl | h'
      · exact le_trans (le_max_right x a) (foldl_max_init l (max x a))
      · exact ih a (max x b) h'
theorem foldl_max_mem (l : List ℚ) (x : ℚ) :
    l.foldl max x = x ∨ l.foldl max x ∈ l := by
  induction l generalizing x with
  | nil => simp
  | cons b l ih =>
      simp only [List.foldl_cons]
      rcases ih (max x b) with h | h
      · rcases max_choice x b with h' | h'
        · exact Or.inl (by rw [h, h'])
        · exact Or.inr (by rw [h, h']; exact List.mem_cons_self b l)
      · exact Or.inr (List.mem_cons_of_mem b h)

namespace KrotovsRule

variable {B D H : ℕ}

theorem mem_absEntries (m : Mat H D) (h : Fin H) (d : Fin D) :
    qabs (m h d) ∈ absEntries m := by
  unfold absEntries
  refine List.mem_flatMap.mpr ⟨h, List.mem_finRange h, ?_⟩
  exact List.mem_map.mpr ⟨d, List.mem_finRange d, rfl⟩

theorem abs_le_maxAbs (m : Mat H D) (h : Fin H) (d : Fin D) :
    |m h d| ≤ maxAbs m := by
  rw [← qabs_eq_abs]
  simp only [maxAbs, listMax]
  exact le_foldl_max _ _ _ (mem_absEntries m h d)

theorem maxAbs_nonneg (m : Mat H D) : 0 ≤ maxAbs m := by
  simp only [maxAbs, listMax]
  exact foldl_max_init _ 0

theorem maxAbs_attained (m : Mat H D) :
    maxAbs m = 0 ∨ ∃ h d, maxAbs m = |m h d| := by
  simp only [maxAbs, listMax]
  rcases foldl_max_mem (absEntries m) 0 with h | h
  · exact Or.inl h
  · refine Or.inr ?_
    unfold absEntries at h ⊢
    rcases List.mem_flatMap.mp h with ⟨hh, _, hmem⟩
    rcases List.mem_map.mp hmem with ⟨dd, _, hd⟩
    exact ⟨hh, dd, by rw [← hd, qabs_eq_abs]⟩

/-- With a nonempty batch, `0 < k ≤ H` and a nonzero feature dimension,
`update` takes no error branch and returns the normalized delta. -/
theorem update_ok (r : KrotovsRule) (X : Mat B D) (W : Mat H D)
    (hB : 1 ≤ B) (hD : 1 ≤ D) (hk : 1 ≤ r.k) (hkH : r.k ≤ H) :
    update r X W = Except.ok (d_w r X W) := by
  unfold update
  rw [if_neg (by omega), if_neg (by simpa using hkH), if_neg (by omega),
    if_neg (by omega)]

theorem update_argsort_ok (r : KrotovsRule) (X : Mat B D) (W : Mat H D)
    (hB : 1 ≤ B) (hD : 1 ≤ D) (hk : 1 ≤ r.k) (hkH : r.k ≤ H) :
    update_argsort r X W = Except.ok (d_wArg r X W) := by
  unfold update_argsort
  rw [if_neg (by omega), if_neg (by simpa using hkH), if_neg (by omega),
    if_neg (by omega)]

theorem argIdx_eq_topIdx (r : KrotovsRule) (X : Mat B D) (W : Mat H D)
    (b : Fin B) (hk : 1 ≤ r.k) (hkH : r.k ≤ H) :
    argIdx r X W (H - r.k) b = topIdx r X W (r.k - 1) b := by
  unfold argIdx topIdx
  have h := argsort_get?_eq (colScore r X W b) (r.k - 1) (by omega)
  have harith : H - 1 - (r.k - 1) = H - r.k := by omega
  rw [harith] at h
  exact h

theorem argIdx_last_eq_topIdx (r : KrotovsRule) (X : Mat B D) (W : Mat H D)
    (b : Fin B) (hH : 1 ≤ H) :
    argIdx r X W (H - 1) b = topIdx r X W 0 b := by
  unfold argIdx topIdx
  have h := argsort_get?_eq (colScore r X W b) 0 (by omega)
  simpa using h

theorem activationsArg_eq (r : KrotovsRule) (X : Mat B D) (W : Mat H D)
    (hk : 1 ≤ r.k) (hkH : r.k ≤ H) :
    activationsArg r X W = activations r X W := by
  funext h b
  unfold activationsArg activations
  rw [argIdx_eq_topIdx r X W b hk hkH, argIdx_last_eq_topIdx r X W b (by omega)]

theorem d_wArg_eq (r : KrotovsRule) (X : Mat B D) (W : Mat H D)
    (hk : 1 ≤ r.k) (hkH : r.k ≤ H) :
    d_wArg r X W = d_w r X W := by
  have hact := activationsArg_eq r X W hk hkH
  unfold d_wArg d_w rawDeltaArg rawDelta normFactorArg normFactor xxArg xx
  rw [hact]

end KrotovsRule

section RankFacts

variable {H : ℕ}

/-- If `x` sits at rank `i` of the descending ranking and `h` occupies
no earlier rank, then `h` does not order strictly before `x`. -/
theorem ranked_not_better (s : Fin H → ℚ) (i : ℕ) (x : Fin H)
    (hx : (topkIndices s).get? i = some x) (h : Fin H) (hne : h ≠ x)
    (hearly : ∀ j, j < i → (topkIndices s).get? j ≠ some h) :
    descLt s h x = false := by
  obtain ⟨hi, hxe⟩ := List.get?_eq_some.mp hx
  have hxe' : (topkIndices s)[i] = x := by
    simpa [List.get_eq_getElem] using hxe
  obtain ⟨p, hp, hpe⟩ := List.mem_iff_getElem.mp (mem_topkIndices s h)
  have hpne : p ≠ i := by
    intro hc
    subst hc
    exact hne (hpe ▸ hxe' ▸ rfl)
  have hpgt : i < p := by
    rcases Nat.lt_or_ge p i with hlt | hge
    · exfalso
      apply hearly p hlt
      rw [List.get?_eq_getElem?, List.getElem?_eq_getElem hp, hpe]
    · omega
  have hpair :=
    (List.pairwise_iff_getElem.mp (topkIndices_pairwise s)) i p hi hp hpgt
  rw [hxe', hpe] at hpair
  exact hpair

/-- Under a no-ties assumption, "does not order strictly before" is a
strict score comparison. -/
theorem lt_of_not_descLt (s : Fin H → ℚ) (h x : Fin H)
    (hts : s h ≠ s x) (hf : descLt s h x = false) : s h < s x := by
  have hiff := descLt_iff s h x
  rw [hf] at hiff
  have : ¬ (s x < s h ∨ (s h = s x ∧ h < x)) := by
    intro hc
    exact absurd (hiff.mpr hc) (by simp)
  push_neg at this
  exact lt_of_le_of_ne this.1 hts

/-- Distinct ranks hold distinct units. -/
theorem ranked_ne (s : Fin H → ℚ) {i j : ℕ} {x y : Fin H} (hij : i ≠ j)
    (hx : (topkIndices s).get? i = some x)
    (hy : (topkIndices s).get? j = some y) : x ≠ y := by
  obtain ⟨hi, hxe⟩ := List.get?_eq_some.mp hx
  obtain ⟨hj, hye⟩ := List.get?_eq_some.mp hy
  intro hc
  apply hij
  have hnd := topkIndices_nodup s
  have heq : (⟨i, hi⟩ : Fin (topkIndices s).length) = ⟨j, hj⟩ :=
    (List.Nodup.get_inj_iff hnd).mp (by rw [hxe, hye, hc])
  simpa using congrArg Fin.val heq

end RankFacts

/-- C1: for every input batch `X : (B, D)` with `B ≥ 1` (and a nonzero
feature dimension), every weight matrix `W : (H, D)`, and hyperparameters
with `1 ≤ k ≤ H`, `KrotovsRule.update` and `KrotovsRule.update_argsort`
return numerically identical delta matrices. -/
theorem claim_C1_update_equiv_argsort {B D H : ℕ} (r : KrotovsRule)
    (X : Mat B D) (W : Mat H D) (hB : 1 ≤ B) (hD : 1 ≤ D)
    (hk : 1 ≤ r.k) (hkH : r.k ≤ H) :
    ∃ dw : Mat H D, KrotovsRule.update r X W = Except.ok dw ∧
      KrotovsRule.update_argsort r X W = Except.ok dw := by
  refine ⟨KrotovsRule.d_w r X W, KrotovsRule.update_ok r X W hB hD hk hkH, ?_⟩
  rw [KrotovsRule.update_argsort_ok r X W hB hD hk hkH,
    KrotovsRule.d_wArg_eq r X W hk hkH]

/-- Witness for C1 at `B = 2`, `D = 2`, `H = 3`, `k = 2`, `p = 3`,
`delta = 2/5`. -/
theorem claim_C1_witness :
    ∃ dw : Mat 3 2,
      KrotovsRule.update ⟨1/10^30, 2/5, 3, 2⟩
        (fun b d => if b = d then 1 else 2)
        (fun h d => (h : ℚ) - (d : ℚ)) = Except.ok dw ∧
      KrotovsRule.update_argsort ⟨1/10^30, 2/5, 3, 2⟩
        (fun b d => if b = d then 1 else 2)
        (fun h d => (h : ℚ) - (d : ℚ)) = Except.ok dw :=
  claim_C1_update_equiv_argsort ⟨1/10^30, 2/5, 3, 2⟩ _ _
    (by decide) (by decide) (by decide) (by decide)

/-- C4: the overlap score computed inside `update` is
`score[h, b] = Σ_d sign(W[h, d]) * |W[h, d]|^(p-1) * X[b, d]` where `p`
is the rule's `norm` hyperparameter. -/
theorem claim_C4_overlap_score {B D H : ℕ} (r : KrotovsRule) (X : Mat B D)
    (W : Mat H D) (h : Fin H) (b : Fin B) :
    KrotovsRule.totInput r X W h b
      = ∑ d : Fin D, qsign (W h d) * |W h d| ^ (r.norm - 1) * X b d := by
  unfold KrotovsRule.totInput matmulM elemMul signM absPowM
    KrotovsRule.inputsT transposeM
  refine Finset.sum_congr rfl ?_
  intro d _
  rw [qabs_eq_abs]

/-- C5 counterexample: constructing a `KrotovsRule` with `k = 5`
succeeds (returns the rule, raises nothing), even though the weight
matrices it will be applied to may have fewer hidden units: the
constructor performs no validation. -/
theorem claim_C5_counterexample :
    KrotovsRule.init (1/10^30) (2/5) 2 5
      = Except.ok { precision := 1/10^30, delta := 2/5, norm := 2, k := 5 } :=
  rfl

/-- C5 amended: construction never fails; instead the first `update`
call with `k` greater than the number of hidden units fails its
assertion, before any score, activation or delta computation is
performed (the error branch returns before the `d_w` pipeline is
entered). -/
theorem claim_C5_update_rejects_k_gt_H {B D H : ℕ} (r : KrotovsRule)
    (X : Mat B D) (W : Mat H D) (hB : 1 ≤ B) (hkH : H < r.k) :
    KrotovsRule.update r X W
      = Except.error
          "The amount of hidden units should be larger or equal to k!" := by
  unfold KrotovsRule.update
  rw [if_neg (by omega), if_pos (by omega)]

/-- Witness for C5's amended theorem: `k = 5` against `H = 2` hidden
units fails the assertion. -/
theorem claim_C5_witness :
    KrotovsRule.update (B := 1) (D := 2) (H := 2) ⟨1/10^30, 2/5, 2, 5⟩
      (fun _ _ => 0) (fun _ _ => 0)
      = Except.error
          "The amount of hidden units should be larger or equal to k!" :=
  claim_C5_update_rejects_k_gt_H ⟨1/10^30, 2/5, 2, 5⟩ _ _
    (by decide) (by decide)

/-- C10: `update` is a pure function of its arguments and the rule's
hyperparameters: equal inputs and weights give equal results, and on
valid shapes the call succeeds, returning a delta of the same shape
`H × D` as the weights (shape preservation is enforced by the return
type `Mat H D`); the embedding is functional, so neither `X` nor `W`
is mutated. -/
theorem claim_C10_update_pure {B D H : ℕ} (r : KrotovsRule)
    (X X' : Mat B D) (W W' : Mat H D) (hB : 1 ≤ B) (hD : 1 ≤ D)
    (hk : 1 ≤ r.k) (hkH : r.k ≤ H) (hX : X = X') (hW : W = W') :
    KrotovsRule.update r X W = KrotovsRule.update r X' W' ∧
      ∃ dw : Mat H D, KrotovsRule.update r X W = Except.ok dw := by
  subst hX
  subst hW
  exact ⟨rfl, KrotovsRule.d_w r X W, KrotovsRule.update_ok r X W hB hD hk hkH⟩

/-- Witness for C10 at `B = 1`, `D = 2`, `H = 1`, `k = 1`. -/
theorem claim_C10_witness :
    KrotovsRule.update ⟨1/10^30, 2/5, 2, 1⟩
        (fun (_ : Fin 1) (d : Fin 2) => if d = 0 then (1 : ℚ) else 0)
        (fun (_ : Fin 1) (_ : Fin 2) => (1 : ℚ))
      = KrotovsRule.update (B := 1) (D := 2) (H := 1) ⟨1/10^30, 2/5, 2, 1⟩
        (fun _ d => if d = 0 then 1 else 0) (fun _ _ => 1) ∧
    ∃ dw : Mat 1 2,
      KrotovsRule.update (B := 1) (D := 2) (H := 1) ⟨1/10^30, 2/5, 2, 1⟩
        (fun _ d => if d = 0 then 1 else 0) (fun _ _ => 1)
        = Except.ok dw :=
  claim_C10_update_pure ⟨1/10^30, 2/5, 2, 1⟩ _ _ _ _
    (by decide) (by decide) (by decide) (by decide) rfl rfl

/-- C2: on a valid call (nonempty batch, nonzero feature dimension,
`1 ≤ k ≤ H`, positive `precision`): if some raw-delta entry has absolute
value at least `precision` then the returned delta has maximum absolute
entry exactly `1`; if every raw-delta entry is below `precision` then
the result is the raw delta divided by `precision`, and no error is
raised in either case. -/
theorem claim_C2_normalization {B D H : ℕ} (r : KrotovsRule)
    (X : Mat B D) (W : Mat H D) (hB : 1 ≤ B) (hD : 1 ≤ D)
    (hk : 1 ≤ r.k) (hkH : r.k ≤ H) (hprec : 0 < r.precision) :
    ((∃ h d, r.precision ≤ |KrotovsRule.rawDelta r X W h d|) →
      ∃ dw : Mat H D, KrotovsRule.update r X W = Except.ok dw ∧
        (∀ h d, |dw h d| ≤ 1) ∧ (∃ h d, |dw h d| = 1)) ∧
    ((∀ h d, |KrotovsRule.rawDelta r X W h d| < r.precision) →
      KrotovsRule.update r X W
        = Except.ok
            (fun h d => KrotovsRule.rawDelta r X W h d / r.precision)) := by
  constructor
  · rintro ⟨h0, d0, hge⟩
    have hmax_ge : r.precision ≤ KrotovsRule.maxAbs (KrotovsRule.rawDelta r X W) :=
      le_trans hge (KrotovsRule.abs_le_maxAbs _ h0 d0)
    have hncof : KrotovsRule.ncOf r (KrotovsRule.rawDelta r X W)
        = KrotovsRule.maxAbs (KrotovsRule.rawDelta r X W) := by
      unfold KrotovsRule.ncOf
      exact if_neg (not_lt.mpr hmax_ge)
    have hpos : 0 < KrotovsRule.maxAbs (KrotovsRule.rawDelta r X W) :=
      lt_of_lt_of_le hprec hmax_ge
    refine ⟨KrotovsRule.d_w r X W, KrotovsRule.update_ok r X W hB hD hk hkH,
      ?_, ?_⟩
    · intro h d
      show |KrotovsRule.rawDelta r X W h d
        / KrotovsRule.ncOf r (KrotovsRule.rawDelta r X W)| ≤ 1
      rw [abs_div, hncof, abs_of_pos hpos, div_le_one hpos]
      exact KrotovsRule.abs_le_maxAbs _ h d
    · rcases KrotovsRule.maxAbs_attained (KrotovsRule.rawDelta r X W) with
        hz | ⟨h1, d1, hattain⟩
      · exact absurd hpos (by rw [hz]; exact lt_irrefl 0)
      · refine ⟨h1, d1, ?_⟩
        show |KrotovsRule.rawDelta r X W h1 d1
          / KrotovsRule.ncOf r (KrotovsRule.rawDelta r X W)| = 1
        rw [abs_div, hncof, abs_of_pos hpos, ← hattain,
          div_self (ne_of_gt hpos)]
  · intro hall
    have hltprec : KrotovsRule.maxAbs (KrotovsRule.rawDelta r X W)
        < r.precision := by
      rcases KrotovsRule.maxAbs_attained (KrotovsRule.rawDelta r X W) with
        hz | ⟨h1, d1, hattain⟩
      · rw [hz]; exact hprec
      · rw [hattain]; exact hall h1 d1
    have hncof : KrotovsRule.ncOf r (KrotovsRule.rawDelta r X W)
        = r.precision := by
      unfold KrotovsRule.ncOf
      exact if_pos hltprec
    rw [KrotovsRule.update_ok r X W hB hD hk hkH]
    congr 1
    funext h d
    show KrotovsRule.rawDelta r X W h d
      / KrotovsRule.ncOf r (KrotovsRule.rawDelta r X W)
      = KrotovsRule.rawDelta r X W h d / r.precision
    rw [hncof]

/-- A `k = 1` rule instance used as concrete test input. -/
def rK1 : KrotovsRule := ⟨1/10^30, 2/5, 2, 1⟩

/-- A one-sample batch `[[1, 0]]` used as concrete test input. -/
def XB1 : Mat 1 2 := fun _ d => if d = 0 then 1 else 0

/-- A single-unit weight matrix `[[1, 1]]` used as concrete test input. -/
def WB1 : Mat 1 2 := fun _ _ => 1

unseal Rat.add Rat.mul Rat.sub Rat.inv in
/-- Witness for C2 at `B = 1`, `D = 2`, `H = 1`, `k = 1`: the raw delta
is `[0, 2/5]`, so the non-degenerate branch of the normalization
contract applies. -/
theorem claim_C2_witness :
    ((∃ h d, rK1.precision ≤ |KrotovsRule.rawDelta rK1 XB1 WB1 h d|) →
      ∃ dw : Mat 1 2,
        KrotovsRule.update rK1 XB1 WB1 = Except.ok dw ∧
        (∀ h d, |dw h d| ≤ 1) ∧ (∃ h d, |dw h d| = 1)) ∧
    ((∀ h d, |KrotovsRule.rawDelta rK1 XB1 WB1 h d| < rK1.precision) →
      KrotovsRule.update rK1 XB1 WB1
        = Except.ok
            (fun h d => KrotovsRule.rawDelta rK1 XB1 WB1 h d
              / rK1.precision)) :=
  claim_C2_normalization rK1 XB1 WB1
    (by decide) (by decide) (by decide) (by decide) (by decide)

/-- C3: for `k = 2` and per-sample scores without exact ties, the
activation matrix built inside `update` assigns, for each sample, `+1`
to exactly one hidden unit (the strictly highest-scoring one), `-delta`
to exactly one distinct hidden unit (the second-ranked one), and `0` to
every other hidden unit. -/
theorem claim_C3_k2_competition {B D H : ℕ} (r : KrotovsRule)
    (X : Mat B D) (W : Mat H D) (hk2 : r.k = 2) (hkH : r.k ≤ H)
    (hnt : ∀ (b : Fin B) (h h' : Fin H), h ≠ h' →
      KrotovsRule.totInput r X W h b ≠ KrotovsRule.totInput r X W h' b)
    (b : Fin B) :
    ∃ w s2 : Fin H, w ≠ s2 ∧
      KrotovsRule.activations r X W w b = 1 ∧
      KrotovsRule.activations r X W s2 b = -r.delta ∧
      (∀ h : Fin H, h ≠ w → h ≠ s2 →
        KrotovsRule.activations r X W h b = 0) ∧
      (∀ h : Fin H, h ≠ w →
        KrotovsRule.totInput r X W h b < KrotovsRule.totInput r X W w b) ∧
      (∀ h : Fin H, h ≠ w → h ≠ s2 →
        KrotovsRule.totInput r X W h b
          < KrotovsRule.totInput r X W s2 b) := by
  have hH : 2 ≤ H := hk2 ▸ hkH
  have hlen : (topkIndices (KrotovsRule.colScore r X W b)).length = H :=
    topkIndices_length _
  have h0 : 0 < (topkIndices (KrotovsRule.colScore r X W b)).length := by
    omega
  have h1 : 1 < (topkIndices (KrotovsRule.colScore r X W b)).length := by
    omega
  have htopIdx1 : KrotovsRule.topIdx r X W (r.k - 1) b
      = some ((topkIndices (KrotovsRule.colScore r X W b)).get ⟨1, h1⟩) := by
    rw [hk2]
    exact List.get?_eq_get h1
  have htopIdx0 : KrotovsRule.topIdx r X W 0 b
      = some ((topkIndices (KrotovsRule.colScore r X W b)).get ⟨0, h0⟩) :=
    List.get?_eq_get h0
  have hne01 := ranked_ne (KrotovsRule.colScore r X W b) (i := 0) (j := 1)
    (by omega) (List.get?_eq_get h0) (List.get?_eq_get h1)
  refine ⟨(topkIndices (KrotovsRule.colScore r X W b)).get ⟨0, h0⟩,
    (topkIndices (KrotovsRule.colScore r X W b)).get ⟨1, h1⟩, hne01,
    ?_, ?_, ?_, ?_, ?_⟩
  · unfold KrotovsRule.activations
    rw [htopIdx1, htopIdx0, if_neg (by simpa using hne01.symm), if_pos rfl]
  · unfold KrotovsRule.activations
    rw [htopIdx1, if_pos rfl]
  · intro h hnw hns
    unfold KrotovsRule.activations
    rw [htopIdx1, htopIdx0, if_neg (by simpa using Ne.symm hns),
      if_neg (by simpa using Ne.symm hnw)]
  · intro h hnw
    have hf := ranked_not_better (KrotovsRule.colScore r X W b) 0 _
      (List.get?_eq_get h0) h hnw
      (fun j hj => absurd hj (Nat.not_lt_zero j))
    exact lt_of_not_descLt (KrotovsRule.colScore r X W b) h _
      (hnt b h _ hnw) hf
  · intro h hnw hns
    have hearly : ∀ j, j < 1 →
        (topkIndices (KrotovsRule.colScore r X W b)).get? j ≠ some h := by
      intro j hj
      have hj0 : j = 0 := by omega
      subst hj0
      rw [List.get?_eq_get h0]
      simpa using Ne.symm hnw
    have hf := ranked_not_better (KrotovsRule.colScore r X W b) 1 _
      (List.get?_eq_get h1) h hns hearly
    exact lt_of_not_descLt (KrotovsRule.colScore r X W b) h _
      (hnt b h _ hns) hf

/-- A `k = 2` rule instance used as concrete test input. -/
def rK2 : KrotovsRule := ⟨1/10^30, 2/5, 2, 2⟩

/-- A one-sample, one-feature batch `[[1]]` used as concrete test
input. -/
def XC3 : Mat 1 1 := fun _ _ => 1

/-- A two-unit weight matrix `[[1], [2]]` with distinct per-sample
scores, used as concrete test input. -/
def WC3 : Mat 2 1 := fun h _ => (h : ℚ) + 1

unseal Rat.add Rat.mul Rat.sub Rat.inv in
/-- Witness for C3 at `B = 1`, `D = 1`, `H = 2`, `k = 2`, scores `1`
and `2` (no ties). -/
theorem claim_C3_witness :
    ∃ w s2 : Fin 2, w ≠ s2 ∧
      KrotovsRule.activations rK2 XC3 WC3 w 0 = 1 ∧
      KrotovsRule.activations rK2 XC3 WC3 s2 0 = -rK2.delta ∧
      (∀ h : Fin 2, h ≠ w → h ≠ s2 →
        KrotovsRule.activations rK2 XC3 WC3 h 0 = 0) ∧
      (∀ h : Fin 2, h ≠ w →
        KrotovsRule.totInput rK2 XC3 WC3 h 0
          < KrotovsRule.totInput rK2 XC3 WC3 w 0) ∧
      (∀ h : Fin 2, h ≠ w → h ≠ s2 →
        KrotovsRule.totInput rK2 XC3 WC3 h 0
          < KrotovsRule.totInput rK2 XC3 WC3 s2 0) :=
  claim_C3_k2_competition rK2 XC3 WC3 rfl (by decide) (by decide) 0

/-- C6 amended: for `k = 1`, `update` completes without error on every
valid batch and weight matrix, and for each sample the anti-Hebbian
index coincides with the winner; because the `-delta` store overwrites
the winner's `+1`, each sample contributes activation `-delta` at its
winner (and `0` elsewhere) — not a zero net contribution. -/
theorem claim_C6_k1_amended {B D H : ℕ} (r : KrotovsRule)
    (X : Mat B D) (W : Mat H D) (hB : 1 ≤ B) (hD : 1 ≤ D)
    (hk1 : r.k = 1) (hH : 1 ≤ H) :
    (∃ dw : Mat H D, KrotovsRule.update r X W = Except.ok dw) ∧
    ∀ b : Fin B, ∃ w : Fin H,
      KrotovsRule.activations r X W w b = -r.delta ∧
      ∀ h : Fin H, h ≠ w → KrotovsRule.activations r X W h b = 0 := by
  constructor
  · exact ⟨KrotovsRule.d_w r X W,
      KrotovsRule.update_ok r X W hB hD (by omega) (by omega)⟩
  · intro b
    have h0 : 0 < (topkIndices (KrotovsRule.colScore r X W b)).length := by
      rw [topkIndices_length]
      omega
    have htopIdx0 : KrotovsRule.topIdx r X W 0 b
        = some ((topkIndices (KrotovsRule.colScore r X W b)).get ⟨0, h0⟩) :=
      List.get?_eq_get h0
    have hk0 : r.k - 1 = 0 := by omega
    refine ⟨(topkIndices (KrotovsRule.colScore r X W b)).get ⟨0, h0⟩, ?_, ?_⟩
    · unfold KrotovsRule.activations
      rw [hk0, htopIdx0, if_pos rfl]
    · intro h hne
      unfold KrotovsRule.activations
      rw [hk0, htopIdx0, if_neg (by simpa using Ne.symm hne),
        if_neg (by simpa using Ne.symm hne)]

unseal Rat.add Rat.mul Rat.sub Rat.inv in
/-- C6 counterexample: at `k = 1`, `delta = 2/5`, batch `[[1, 0]]` and
weights `[[1, 1]]`, the sample's contribution to the activation matrix
is `-2/5 ≠ 0` and the raw delta has a nonzero entry — the claim that
the net contribution is zero fails (the `-delta` store overwrites the
winner's `+1` rather than cancelling it). -/
theorem claim_C6_counterexample :
    KrotovsRule.activations rK1 XB1 WB1 0 0 = -(2/5) ∧
    KrotovsRule.activations rK1 XB1 WB1 0 0 ≠ 0 ∧
    KrotovsRule.rawDelta rK1 XB1 WB1 0 1 = 2/5 ∧
    KrotovsRule.rawDelta rK1 XB1 WB1 0 1 ≠ 0 := by
  refine ⟨by decide, by decide, by decide, by decide⟩

/-- Witness for C6's amended theorem at `B = 1`, `D = 2`, `H = 1`,
`k = 1`. -/
theorem claim_C6_witness :
    (∃ dw : Mat 1 2, KrotovsRule.update rK1 XB1 WB1 = Except.ok dw) ∧
    ∀ b : Fin 1, ∃ w : Fin 1,
      KrotovsRule.activations rK1 XB1 WB1 w b = -rK1.delta ∧
      ∀ h : Fin 1, h ≠ w → KrotovsRule.activations rK1 XB1 WB1 h b = 0 :=
  claim_C6_k1_amended rK1 XB1 WB1 (by decide) (by decide) rfl (by decide)

/-- Modelled from the spec: the `Local` optimizer's `local_step`
(`pytorch_hebbian/optimizers/local.py`, not among the provided
sources) applies a precomputed delta to the owned weights as
`W += lr * delta`. -/
def localStep {D H : ℕ} (lr : ℚ) (W dW : Mat H D) : Mat H D :=
  fun h d => W h d + lr * dW h d

/-- `HebbianEngine._train_step`: flatten the batch, compute the rule's
delta for the current weights, and hand it to the optimizer; an
exception in `update` propagates before the optimizer step runs. -/
def trainStep {B D H : ℕ} (r : KrotovsRule) (lr : ℚ) (X : Mat B D)
    (W : Mat H D) : Except String (Mat H D) :=
  match KrotovsRule.update r X W with
  | Except.ok dp => Except.ok (localStep lr W dp)
  | Except.error e => Except.error e

/-- The weight tensor after a `_train_step` call: the new weights on
success, the untouched original weights when the step raised. -/
def trainStepWeights {B D H : ℕ} (r : KrotovsRule) (lr : ℚ) (X : Mat B D)
    (W : Mat H D) : Mat H D :=
  match trainStep r lr X W with
  | Except.ok W' => W'
  | Except.error _ => W

/-- C7: a zero-sample batch, or a configuration with `k` greater than
the hidden-unit count, makes the training step abort with an error
before any weight mutation: the delta is computed fully before being
applied, so the weight matrix after the failed call is the one from
before it. -/
theorem claim_C7_failed_step_preserves_weights {B D H : ℕ}
    (r : KrotovsRule) (lr : ℚ) (X : Mat B D) (W : Mat H D)
    (hfail : B = 0 ∨ H < r.k) :
    (∃ msg, trainStep r lr X W = Except.error msg) ∧
    trainStepWeights r lr X W = W := by
  have herr : ∃ msg, KrotovsRule.update r X W = Except.error msg := by
    rcases hfail with hB | hk
    · exact ⟨"index 0 is out of bounds for dimension 0 with size 0", by
        unfold KrotovsRule.update
        rw [if_pos hB]⟩
    · by_cases hB : B = 0
      · exact ⟨"index 0 is out of bounds for dimension 0 with size 0", by
          unfold KrotovsRule.update
          rw [if_pos hB]⟩
      · exact ⟨"The amount of hidden units should be larger or equal to k!",
          by
            unfold KrotovsRule.update
            rw [if_neg hB, if_pos (by omega)]⟩
  rcases herr with ⟨msg, hmsg⟩
  have hstep : trainStep r lr X W = Except.error msg := by
    unfold trainStep
    rw [hmsg]
  refine ⟨⟨msg, hstep⟩, ?_⟩
  unfold trainStepWeights
  rw [hstep]

/-- Witness for C7: the empty batch (`B = 0`) aborts the step and the
weights are unchanged. -/
theorem claim_C7_witness :
    (∃ msg, trainStep (B := 0) (D := 2) (H := 1) rK1 1
      (fun _ _ => 0) (fun _ _ => 1) = Except.error msg) ∧
    trainStepWeights (B := 0) (D := 2) (H := 1) rK1 1
      (fun _ _ => 0) (fun _ _ => 1) = fun _ _ => 1 :=
  claim_C7_failed_step_preserves_weights rK1 1
    (fun _ _ => 0) (fun _ _ => 1) (Or.inl rfl)

/-- The per-epoch side effects of `HebbianEngine.train` relevant to the
evaluation/checkpoint cadence: which (1-based) epochs invoked the
evaluator and which invoked the checkpoint sink. -/
structure EngineTrace where
  evalEpochs : List ℕ
  checkpointEpochs : List ℕ

/-- `if every is not None: if vis_epoch % every == 0:` — whether a
cadence parameter fires at a given 1-based epoch.  (A `some 0` cadence
is outside the modelled scope: there Python would raise
`ZeroDivisionError`.) -/
def cadenceHit (visEpoch : ℕ) : Option ℕ → Bool
  | none => false
  | some v => visEpoch % v == 0

/-- The evaluation/checkpoint cadence of the epoch loop of
`HebbianEngine.train`: epoch `epoch` (0-based) uses
`vis_epoch = epoch + 1`, runs the evaluator when `eval_every` fires and
the checkpoint sink when `checkpoint_every` fires. -/
def trainCadence (evalEvery checkpointEvery : Option ℕ) : ℕ → EngineTrace
  | 0 => { evalEpochs := [], checkpointEpochs := [] }
  | n + 1 =>
      let prev := trainCadence evalEvery checkpointEvery n
      { evalEpochs := prev.evalEpochs
          ++ if cadenceHit (n + 1) evalEvery then [n + 1] else [],
        checkpointEpochs := prev.checkpointEpochs
          ++ if cadenceHit (n + 1) checkpointEvery then [n + 1] else [] }

/-- C8: `train` with `checkpoint_every = None` and `eval_every = 2`
over 4 epochs invokes the evaluator exactly twice, after epochs 2 and
4, and the checkpoint sink zero times; in general a `None` checkpoint
interval disables checkpointing for any number of epochs. -/
theorem claim_C8_cadence :
    (trainCadence (some 2) none 4).evalEpochs = [2, 4] ∧
    (trainCadence (some 2) none 4).checkpointEpochs = [] ∧
    ∀ (epochs : ℕ) (evalEvery : Option ℕ),
      (trainCadence evalEvery none epochs).checkpointEpochs = [] := by
  refine ⟨by decide, by decide, ?_⟩
  intro epochs evalEvery
  induction epochs with
  | zero => rfl
  | succ n ih => simp [trainCadence, cadenceHit, ih]

/-- An observable event of the training loop: a learning-rate read at
the top of an epoch, a batch step, or a scheduler step. -/
inductive TrainEvent where
  | lrRead (lr : ℚ)
  | batch
  | schedStep

/-- The state of `torch.optim.lr_scheduler.LambdaLR` as constructed in
`main`: a base learning rate, the total epoch count captured by the
`lr_lambda` closure, and the step counter (`last_epoch`, `0` right
after construction). -/
structure LambdaScheduler where
  baseLr : ℚ
  totalEpochs : ℕ
  lastEpoch : ℕ

/-- `get_last_lr()` for `lr_lambda = lambda epoch: 1 - epoch / epochs`:
`base_lr * (1 - last_epoch / epochs)`. -/
def LambdaScheduler.getLastLr (s : LambdaScheduler) : ℚ :=
  s.baseLr * (1 - (s.lastEpoch : ℚ) / (s.totalEpochs : ℚ))

/-- `lr_scheduler.step()`: advance the epoch counter by one. -/
def LambdaScheduler.step (s : LambdaScheduler) : LambdaScheduler :=
  { s with lastEpoch := s.lastEpoch + 1 }

/-- One epoch of `HebbianEngine.train` as an event list: read the
current learning rate, process every batch, then step the scheduler. -/
def epochEvents (numBatches : ℕ) (s : LambdaScheduler) : List TrainEvent :=
  TrainEvent.lrRead s.getLastLr ::
    (List.replicate numBatches TrainEvent.batch ++ [TrainEvent.schedStep])

/-- The epoch loop of `HebbianEngine.train`, threading the scheduler
state. -/
def engineEvents (numBatches : ℕ) : ℕ → LambdaScheduler → List TrainEvent
  | 0, _ => []
  | n + 1, s => epochEvents numBatches s ++ engineEvents numBatches n s.step

/-- A full `train` run over `epochs` epochs with the freshly
constructed scheduler of `main`. -/
def engineTrace (baseLr : ℚ) (epochs numBatches : ℕ) : List TrainEvent :=
  engineEvents numBatches epochs
    { baseLr := baseLr, totalEpochs := epochs, lastEpoch := 0 }

/-- The spec's reading of the loop: at (0-based) epoch `e` the loop
reads learning rate `base_lr * (1 - e / epochs)`, processes all
batches, and then advances the schedule exactly once. -/
def engineTraceSpec (baseLr : ℚ) (epochs numBatches : ℕ) :
    List TrainEvent :=
  ((List.range epochs).map fun (e : ℕ) =>
    TrainEvent.lrRead (baseLr * ((1 : ℚ) - (e : ℚ) / (epochs : ℚ))) ::
      (List.replicate numBatches TrainEvent.batch
        ++ [TrainEvent.schedStep])).flatten

theorem engineEvents_spec (baseLr : ℚ) (E numBatches : ℕ) :
    ∀ n j : ℕ,
      engineEvents numBatches n
          { baseLr := baseLr, totalEpochs := E, lastEpoch := j }
        = ((List.range' j n).map fun (e : ℕ) =>
            TrainEvent.lrRead (baseLr * ((1 : ℚ) - (e : ℚ) / (E : ℚ))) ::
              (List.replicate numBatches TrainEvent.batch
                ++ [TrainEvent.schedStep])).flatten := by
  intro n
  induction n with
  | zero => intro j; rfl
  | succ n ih =>
      intro j
      rw [List.range'_succ]
      simp only [List.map_cons, List.flatten_cons]
      rw [engineEvents]
      have hstep : ({ baseLr := baseLr, totalEpochs := E, lastEpoch := j }
          : LambdaScheduler).step
          = { baseLr := baseLr, totalEpochs := E, lastEpoch := j + 1 } := rfl
      rw [hstep, ih (j + 1)]
      rfl

/-- C9: under the linear decay schedule constructed in `main`, the
whole training loop is, epoch by (0-based) epoch `e`: one learning-rate
read returning `base_lr * (1 - e / epochs)`, then all batches, then
exactly one scheduler step. -/
theorem claim_C9_linear_lr_schedule (baseLr : ℚ)
    (epochs numBatches : ℕ) :
    engineTrace baseLr epochs numBatches
      = engineTraceSpec baseLr epochs numBatches := by
  unfold engineTrace engineTraceSpec
  rw [engineEvents_spec baseLr epochs numBatches epochs 0,
    List.range_eq_range']
